import Mathlib

/-!
Verification development for a word-frequency pipeline
(`word_counter.py`): input normalization, tokenization, counting,
stop-word filtering and report rendering.

Python strings are modelled as lists of characters; the pure methods of
the classes CleanInput / UniqueWords / Diagram become functions of the
current input string, and the side-effecting report methods are modelled
by the list of lines they emit.
-/

namespace WordCounter

/-- Python strings are modelled as lists of characters. -/
abbrev PyStr := List Char

/-- An entry of a frequency table: a word together with its count. -/
abbrev Entry := PyStr × Nat

/-- The whitespace test used by str.strip and str.split with no
arguments: space, tab, newline, carriage return, vertical tab, form
feed. -/
def pyIsSpace (c : Char) : Bool :=
  c == ' ' || c == '\t' || c == '\n' || c == '\r' || c == '\x0b' || c == '\x0c'

/-- Model of str.lower: lowercase every character (ASCII letters). -/
def pyLower (s : PyStr) : PyStr := s.map Char.toLower

/-- Model of str.strip: remove leading and trailing whitespace. -/
def pyStrip (s : PyStr) : PyStr :=
  List.rdropWhile pyIsSpace (s.dropWhile pyIsSpace)

/-- CleanInput.clean_user: return self.user.lower().strip(). -/
def clean_user (s : PyStr) : PyStr := pyStrip (pyLower s)

/-- Helper for pySplit: walks the string keeping the current token
reversed in the accumulator. -/
def splitAux : PyStr → PyStr → List PyStr
  | [], acc => if acc.isEmpty then [] else [acc.reverse]
  | c :: cs, acc =>
    if pyIsSpace c then
      if acc.isEmpty then splitAux cs [] else acc.reverse :: splitAux cs []
    else
      splitAux cs (c :: acc)

/-- Model of str.split with no argument: the maximal nonempty runs of
non-whitespace characters. -/
def pySplit (s : PyStr) : List PyStr := splitAux s []

/-- The token list a UniqueWords instance works on:
self.clean_user().split(). -/
def pyTokens (s : PyStr) : List PyStr := pySplit (clean_user s)

/-- The keys of collections.Counter(ws) in their insertion order, which
is the first-occurrence order of the elements of ws. -/
def firstKeys : List PyStr → List PyStr
  | [] => []
  | w :: ws => w :: (firstKeys ws).filter (fun v => v != w)

/-- The item list of collections.Counter(ws): each distinct element in
first-occurrence order, paired with its number of occurrences. -/
def counterItems (ws : List PyStr) : List Entry :=
  (firstKeys ws).map (fun w => (w, ws.count w))

/-- Insert an entry into a list that is sorted by descending count,
after every entry with a strictly larger count and before every entry
with a smaller or equal count. -/
def insertDesc (x : Entry) : List Entry → List Entry
  | [] => [x]
  | y :: ys => if x.2 < y.2 then y :: insertDesc x ys else x :: y :: ys

/-- Stable sort by descending count. Python's sorted(items,
key=itemgetter(1), reverse=True) and heapq.nlargest are stable in
exactly this sense: entries with equal counts keep their relative
order. -/
def sortDesc : List Entry → List Entry
  | [] => []
  | x :: xs => insertDesc x (sortDesc xs)

/-- UniqueWords.word_frequency: Counter(self.clean_user().split()),
modelled by its item list in insertion order. -/
def word_frequency (s : PyStr) : List Entry := counterItems (pyTokens s)

/-- Counter.most_common() with no argument: the full item list sorted
by descending count, ties kept in insertion order. -/
def most_common_all (s : PyStr) : List Entry := sortDesc (word_frequency s)

/-- UniqueWords.most_common(n): the first n entries of the descending
sort; a non-positive n yields the empty list, as heapq.nlargest does. -/
def most_common (s : PyStr) (n : Int) : List Entry :=
  (most_common_all s).take n.toNat

/-- Model of len(set(words)): the number of distinct elements. -/
def setSize (ws : List PyStr) : Nat := (firstKeys ws).length

/-- UniqueWords.stats: the pair (total_words, unique_words). -/
def stats (s : PyStr) : Nat × Nat :=
  ((pyTokens s).length, setSize (pyTokens s))

/-- STOP_WORDS from word_counter.py. -/
def STOP_WORDS : List PyStr :=
  [['t','h','e'], ['a','n','d'], ['o','f'], ['t','o'], ['a'],
   ['i','n'], ['i','s'], ['i','t'], ['y','o','u'], ['t','h','a','t']]

/-- The filtered token list: the tokens that are not stop words. -/
def filteredTokens (s : PyStr) : List PyStr :=
  (pyTokens s).filter (fun w => !(STOP_WORDS.contains w))

/-- Diagram.filtered_frequency: Counter of the non-stop-word tokens. -/
def filtered_frequency (s : PyStr) : List Entry :=
  counterItems (filteredTokens s)

/-- Diagram's filtered counter's most_common() with no argument. -/
def filtered_most_common_all (s : PyStr) : List Entry :=
  sortDesc (filtered_frequency s)

/-- The character of a decimal digit. -/
def digitCh (d : Nat) : Char := Char.ofNat (48 + d)

/-- Helper for natChars, structural in the fuel argument. -/
def natCharsAux : Nat → Nat → PyStr
  | 0, _ => []
  | fuel + 1, n =>
    if n = 0 then [] else natCharsAux fuel (n / 10) ++ [digitCh (n % 10)]

/-- Decimal representation of a natural number, as Python's str(n). -/
def natChars (n : Nat) : PyStr := if n = 0 then ['0'] else natCharsAux n n

/-- Decimal decoding of a character list. -/
def charsToNat (l : PyStr) : Nat :=
  l.foldl (fun a c => a * 10 + (c.toNat - 48)) 0

/-- A report line: the word left-justified in a minimum 15-character
field, one separating space, then the count in decimal. -/
def fmtLine (w : PyStr) (c : Nat) : PyStr :=
  (w ++ List.replicate (15 - w.length) ' ') ++ ' ' :: natChars c

/-- UniqueWords.report: the lines printed to standard output, one per
entry of word_frequency().most_common() with no limit. -/
def report_lines (s : PyStr) : List PyStr :=
  (most_common_all s).map (fun p => fmtLine p.1 p.2)

/-- Diagram.save_report: the lines written to the report file, one per
entry of filtered_frequency().most_common() with no limit. -/
def save_report_lines (s : PyStr) : List PyStr :=
  (filtered_most_common_all s).map (fun p => fmtLine p.1 p.2)

/-- Reading one report line back: split on whitespace and expect a word
followed by a decimal count. -/
def parseLine (l : PyStr) : Option Entry :=
  match pySplit l with
  | [w, d] => some (w, charsToNat d)
  | _ => none

/-- Model of max(words, key=len): the first element of maximal length,
as Python's max replaces the current best only on a strictly larger
key. -/
def pyMaxByLen : List PyStr → Option PyStr
  | [] => none
  | w :: ws =>
    match pyMaxByLen ws with
    | none => some w
    | some v => if w.length < v.length then some v else some w

/-- Model of min(words, key=len): the first element of minimal length. -/
def pyMinByLen : List PyStr → Option PyStr
  | [] => none
  | w :: ws =>
    match pyMinByLen ws with
    | none => some w
    | some v => if v.length < w.length then some v else some w

/-- Diagram.word_lengths: the pair (longest, shortest) over the
filtered token list, both None when it is empty. -/
def word_lengths (s : PyStr) : Option PyStr × Option PyStr :=
  (pyMaxByLen (filteredTokens s), pyMinByLen (filteredTokens s))

/-! ### Character-level facts about lowercasing and whitespace -/

/-- Characters of small code point are produced faithfully by Char.ofNat. -/
theorem toNat_ofNat_small (m : Nat) (h : m < 55296) : (Char.ofNat m).toNat = m := by
  have hv : m.isValidChar := Or.inl h
  rw [Char.ofNat, dif_pos hv]
  simp [Char.ofNatAux, Char.toNat, UInt32.toNat]

/-- A whitespace character has code point at most 32. -/
theorem toNat_le_of_pyIsSpace {c : Char} (h : pyIsSpace c = true) : c.toNat ≤ 32 := by
  simp only [pyIsSpace, Bool.or_eq_true, beq_iff_eq] at h
  rcases h with ((((h | h) | h) | h) | h) | h <;> subst h <;> decide

/-- Characters with code point at least 33 are not whitespace. -/
theorem pyIsSpace_eq_false {c : Char} (h : 33 ≤ c.toNat) : pyIsSpace c = false := by
  cases hsp : pyIsSpace c with
  | false => rfl
  | true => exact absurd (toNat_le_of_pyIsSpace hsp) (by omega)

/-- On an upper-case ASCII letter, Char.toLower adds 32 to the code point. -/
theorem toLower_toNat_of_upper {c : Char} (h : c.toNat ≥ 65 ∧ c.toNat ≤ 90) :
    (Char.toLower c).toNat = c.toNat + 32 := by
  rw [Char.toLower, if_pos h]
  exact toNat_ofNat_small _ (by omega)

/-- Outside the upper-case ASCII range, Char.toLower is the identity. -/
theorem toLower_eq_self_of_not_upper {c : Char} (h : ¬(c.toNat ≥ 65 ∧ c.toNat ≤ 90)) :
    Char.toLower c = c := by
  rw [Char.toLower, if_neg h]

/-- Lowercasing does not affect whether a character is whitespace. -/
theorem pyIsSpace_toLower (c : Char) : pyIsSpace (Char.toLower c) = pyIsSpace c := by
  by_cases h : c.toNat ≥ 65 ∧ c.toNat ≤ 90
  · have h1 := toLower_toNat_of_upper h
    rw [pyIsSpace_eq_false (c := Char.toLower c) (by omega),
      pyIsSpace_eq_false (by omega)]
  · rw [toLower_eq_self_of_not_upper h]

/-- Char.toLower is idempotent. -/
theorem toLower_idem (c : Char) : Char.toLower (Char.toLower c) = Char.toLower c := by
  by_cases h : c.toNat ≥ 65 ∧ c.toNat ≤ 90
  · have h1 := toLower_toNat_of_upper h
    exact toLower_eq_self_of_not_upper (by omega)
  · rw [toLower_eq_self_of_not_upper h, toLower_eq_self_of_not_upper h]

/-! ### Normalization: commutation and idempotence -/

theorem pyLower_dropWhile (l : PyStr) :
    (pyLower l).dropWhile pyIsSpace = pyLower (l.dropWhile pyIsSpace) := by
  unfold pyLower
  rw [List.dropWhile_map]
  have hp : (pyIsSpace ∘ Char.toLower) = pyIsSpace := funext pyIsSpace_toLower
  rw [hp]

theorem pyLower_reverse (l : PyStr) : (pyLower l).reverse = pyLower l.reverse := by
  unfold pyLower
  exact (List.map_reverse Char.toLower l).symm

theorem pyLower_rdropWhile (l : PyStr) :
    List.rdropWhile pyIsSpace (pyLower l) = pyLower (List.rdropWhile pyIsSpace l) := by
  rw [List.rdropWhile, List.rdropWhile, pyLower_reverse, pyLower_dropWhile, pyLower_reverse]

/-- Lowercasing commutes with stripping. -/
theorem pyStrip_pyLower (s : PyStr) : pyStrip (pyLower s) = pyLower (pyStrip s) := by
  unfold pyStrip
  rw [pyLower_dropWhile, pyLower_rdropWhile]

/-- pyLower is idempotent. -/
theorem pyLower_idem (s : PyStr) : pyLower (pyLower s) = pyLower s := by
  unfold pyLower
  rw [List.map_map]
  exact List.map_congr_left (fun c _ => toLower_idem c)

/-- pyStrip is idempotent. -/
theorem pyStrip_idem (s : PyStr) : pyStrip (pyStrip s) = pyStrip s := by
  unfold pyStrip
  have ha : (s.dropWhile pyIsSpace).dropWhile pyIsSpace = s.dropWhile pyIsSpace :=
    List.dropWhile_idempotent _ _
  have hb : (List.rdropWhile pyIsSpace (s.dropWhile pyIsSpace)).dropWhile pyIsSpace
      = List.rdropWhile pyIsSpace (s.dropWhile pyIsSpace) := by
    rcases hbe : List.rdropWhile pyIsSpace (s.dropWhile pyIsSpace) with _ | ⟨x, xs⟩
    · rfl
    · obtain ⟨t, ht⟩ := List.rdropWhile_prefix pyIsSpace (s.dropWhile pyIsSpace)
      rw [hbe] at ht
      have hx : pyIsSpace x = false := by
        cases hxs : pyIsSpace x with
        | false => rfl
        | true =>
          exfalso
          have hdw : (s.dropWhile pyIsSpace).dropWhile pyIsSpace
              = (s.dropWhile pyIsSpace).dropWhile pyIsSpace := rfl
          rw [← ht, List.cons_append] at ha
          rw [List.dropWhile_cons_of_pos hxs] at ha
          have hlen := congrArg List.length ha
          have hsub := (List.dropWhile_sublist (l := xs ++ t) pyIsSpace).length_le
          simp only [List.length_cons] at hlen
          omega
      rw [List.dropWhile_cons_of_neg (by simp [hx])]
  rw [hb, List.rdropWhile_idempotent]

/-- The amended normalization of the specification: lowercase applied
after trimming surrounding whitespace. -/
def normalizedSpec (s : PyStr) : PyStr := pyLower (pyStrip s)

/-! ### Tokenizer lemmas -/

/-- Every token produced by splitAux is nonempty and free of
whitespace, provided the accumulator is. -/
theorem splitAux_wf (s : PyStr) : ∀ (acc : PyStr),
    (∀ c ∈ acc, pyIsSpace c = false) →
    ∀ t ∈ splitAux s acc, t ≠ [] ∧ ∀ c ∈ t, pyIsSpace c = false := by
  induction s with
  | nil =>
    intro acc hacc t ht
    by_cases h : acc.isEmpty
    · rw [splitAux, if_pos h] at ht
      exact absurd ht (List.not_mem_nil t)
    · rw [splitAux, if_neg h] at ht
      rw [List.mem_singleton] at ht
      subst ht
      refine ⟨?_, fun c hc => hacc c (List.mem_reverse.1 hc)⟩
      intro hrev
      rw [List.reverse_eq_nil_iff] at hrev
      subst hrev
      exact h rfl
  | cons c cs ih =>
    intro acc hacc t ht
    by_cases hsp : pyIsSpace c
    · by_cases hae : acc.isEmpty
      · rw [splitAux, if_pos hsp, if_pos hae] at ht
        exact ih [] (by intro d hd; exact absurd hd (List.not_mem_nil d)) t ht
      · rw [splitAux, if_pos hsp, if_neg hae] at ht
        rcases List.mem_cons.1 ht with rfl | ht'
        · refine ⟨?_, fun d hd => hacc d (List.mem_reverse.1 hd)⟩
          intro hrev
          rw [List.reverse_eq_nil_iff] at hrev
          subst hrev
          exact hae rfl
        · exact ih [] (by intro d hd; exact absurd hd (List.not_mem_nil d)) t ht'
    · rw [splitAux, if_neg hsp] at ht
      refine ih (c :: acc) ?_ t ht
      intro d hd
      rcases List.mem_cons.1 hd with rfl | hd'
      · exact Bool.eq_false_iff.2 hsp
      · exact hacc d hd'

/-- Every token of pySplit is nonempty and free of whitespace. -/
theorem pySplit_wf (s : PyStr) :
    ∀ t ∈ pySplit s, t ≠ [] ∧ ∀ c ∈ t, pyIsSpace c = false :=
  splitAux_wf s [] (fun c hc => absurd hc (List.not_mem_nil c))

/-- Scanning a whitespace-free block appends it (reversed) to the
accumulator. -/
theorem splitAux_word (w : PyStr) (hw : ∀ c ∈ w, pyIsSpace c = false) :
    ∀ (rest acc : PyStr), splitAux (w ++ rest) acc = splitAux rest (w.reverse ++ acc) := by
  induction w with
  | nil => intro rest acc; simp
  | cons c cs ih =>
    intro rest acc
    have hc : pyIsSpace c = false := hw c (List.mem_cons_self c cs)
    rw [List.cons_append, splitAux, if_neg (by simp [hc])]
    rw [ih (fun d hd => hw d (List.mem_cons_of_mem c hd)) rest (c :: acc)]
    congr 1
    rw [List.reverse_cons, List.append_assoc]
    rfl

/-- Leading spaces with an empty accumulator are skipped. -/
theorem splitAux_spaces (k : Nat) (rest : PyStr) :
    splitAux (List.replicate k ' ' ++ rest) [] = splitAux rest [] := by
  induction k with
  | zero => rfl
  | succ k ih =>
    rw [List.replicate_succ, List.cons_append, splitAux,
      if_pos (by decide), if_pos (by decide)]
    exact ih

/-- A run of spaces flushes a nonempty accumulator as one token. -/
theorem splitAux_flush (k : Nat) (d acc : PyStr) (hacc : acc ≠ []) :
    splitAux (List.replicate (k + 1) ' ' ++ d) acc = acc.reverse :: splitAux d [] := by
  rw [List.replicate_succ, List.cons_append, splitAux, if_pos (by decide),
    if_neg (by simpa [List.isEmpty_iff] using hacc)]
  rw [splitAux_spaces]

/-- A single nonempty whitespace-free block is one token. -/
theorem pySplit_word (d : PyStr) (hd : d ≠ []) (hdc : ∀ c ∈ d, pyIsSpace c = false) :
    pySplit d = [d] := by
  have h := splitAux_word d hdc [] []
  rw [List.append_nil] at h
  rw [pySplit, h, List.append_nil, splitAux,
    if_neg (by simpa [List.isEmpty_iff] using (by simpa [List.reverse_eq_nil_iff] using hd : d.reverse ≠ []))]
  rw [List.reverse_reverse]

/-- Splitting a line made of a word, at least one space, and a second
word yields exactly those two words. -/
theorem pySplit_line (w d : PyStr) (k : Nat) (hw : w ≠ [])
    (hwc : ∀ c ∈ w, pyIsSpace c = false)
    (hd : d ≠ []) (hdc : ∀ c ∈ d, pyIsSpace c = false) :
    pySplit (w ++ (List.replicate (k + 1) ' ' ++ d)) = [w, d] := by
  have h1 := splitAux_word w hwc (List.replicate (k + 1) ' ' ++ d) []
  rw [pySplit, h1, List.append_nil,
    splitAux_flush k d w.reverse (by simpa [List.reverse_eq_nil_iff] using hw),
    List.reverse_reverse]
  have h2 := pySplit_word d hd hdc
  rw [pySplit] at h2
  rw [h2]

/-! ### Counter lemmas -/

theorem mem_firstKeys {w : PyStr} : ∀ {l : List PyStr}, w ∈ firstKeys l ↔ w ∈ l := by
  intro l
  induction l with
  | nil => rfl
  | cons x xs ih =>
    rw [firstKeys]
    by_cases hwx : w = x
    · subst hwx
      simp [List.mem_cons]
    · simp only [List.mem_cons, List.mem_filter, bne_iff_ne, ih]
      constructor
      · rintro (rfl | ⟨h1, _⟩)
        · exact Or.inl rfl
        · exact Or.inr h1
      · rintro (rfl | h1)
        · exact Or.inl rfl
        · exact Or.inr ⟨h1, hwx⟩

theorem nodup_firstKeys : ∀ (l : List PyStr), (firstKeys l).Nodup := by
  intro l
  induction l with
  | nil => exact List.nodup_nil
  | cons x xs ih =>
    rw [firstKeys, List.nodup_cons]
    refine ⟨?_, ih.filter _⟩
    intro hx
    rcases List.mem_filter.1 hx with ⟨_, hne⟩
    exact absurd rfl (bne_iff_ne.1 hne)

/-- Taking first occurrences commutes with filtering. -/
theorem firstKeys_filter (p : PyStr → Bool) : ∀ (l : List PyStr),
    firstKeys (l.filter p) = (firstKeys l).filter p := by
  intro l
  induction l with
  | nil => rfl
  | cons x xs ih =>
    by_cases hx : p x
    · rw [List.filter_cons_of_pos hx, firstKeys, firstKeys,
        List.filter_cons_of_pos hx, ih, List.filter_filter, List.filter_filter]
      congr 1
      exact List.filter_congr (fun a _ => Bool.and_comm _ _)
    · rw [List.filter_cons_of_neg (by simpa using hx), firstKeys, ih,
        List.filter_cons_of_neg (by simpa using hx), List.filter_filter]
      exact (List.filter_congr (fun a _ => by
        by_cases hax : a = x
        · subst hax
          simp [hx]
        · simp [bne_iff_ne, hax])).symm

/-- Summing the counts of a duplicate-free key cover gives the length. -/
theorem sum_counts_of_cover : ∀ (keys : List PyStr) (ws : List PyStr),
    keys.Nodup → (∀ w ∈ ws, w ∈ keys) →
    (keys.map (fun k => ws.count k)).sum = ws.length := by
  intro keys
  induction keys with
  | nil =>
    intro ws _ hmem
    cases ws with
    | nil => rfl
    | cons w ws => exact absurd (hmem w (List.mem_cons_self w ws)) (List.not_mem_nil w)
  | cons k ks ih =>
    intro ws hnd hmem
    rcases List.nodup_cons.1 hnd with ⟨hk, hnd'⟩
    rw [List.map_cons, List.sum_cons]
    have hsplit : ws.length = ws.count k + (ws.filter (fun a => !(a == k))).length := by
      have h1 := List.length_eq_countP_add_countP (p := fun a => a == k) (l := ws)
      simp only [decide_not, Bool.decide_coe] at h1
      rw [← List.countP_eq_length_filter, List.count_eq_countP]
      omega
    have hmap : ks.map (fun w => ws.count w)
        = ks.map (fun w => (ws.filter (fun a => !(a == k))).count w) := by
      refine List.map_congr_left (fun w hw => ?_)
      have hwk : w ≠ k := fun h => hk (h ▸ hw)
      exact (List.count_filter (by simp [hwk])).symm
    rw [hmap, ih (ws.filter (fun a => !(a == k))) hnd' ?_]
    · omega
    · intro w hw
      rcases List.mem_filter.1 hw with ⟨hw1, hw2⟩
      rcases List.mem_cons.1 (hmem w hw1) with rfl | h
      · simp at hw2
      · exact h

/-- The counts of a Counter add up to the length of the input list. -/
theorem sum_counterItems (ws : List PyStr) :
    ((counterItems ws).map Prod.snd).sum = ws.length := by
  rw [counterItems, List.map_map]
  exact sum_counts_of_cover (firstKeys ws) ws (nodup_firstKeys ws)
    (fun w hw => mem_firstKeys.2 hw)

/-- The keys of a Counter are the first occurrences of the input. -/
theorem keys_counterItems (ws : List PyStr) :
    (counterItems ws).map Prod.fst = firstKeys ws := by
  rw [counterItems, List.map_map]
  exact List.map_id _

/-- Looking a word up in a Counter gives its occurrence count. -/
theorem lookup_counterItems (w : PyStr) (ws : List PyStr) :
    (counterItems ws).lookup w = if w ∈ ws then some (ws.count w) else none := by
  rw [counterItems]
  have h : ∀ keys : List PyStr,
      ((keys.map (fun k => (k, ws.count k))).lookup w)
        = if w ∈ keys then some (ws.count w) else none := by
    intro keys
    induction keys with
    | nil => rfl
    | cons k ks ih =>
      rw [List.map_cons]
      by_cases hwk : w = k
      · subst hwk
        simp [List.lookup_cons]
      · have hbeq : (w == k) = false := by simpa using hwk
        simp only [List.lookup_cons, hbeq]
        rw [ih]
        simp [List.mem_cons, hwk]
  rw [h (firstKeys ws)]
  by_cases hw : w ∈ ws
  · rw [if_pos (mem_firstKeys.2 hw), if_pos hw]
  · rw [if_neg (fun hc => hw (mem_firstKeys.1 hc)), if_neg hw]

/-- Every stored count is the count of a member, hence positive. -/
theorem counterItems_pos (ws : List PyStr) :
    ∀ p ∈ counterItems ws, 1 ≤ p.2 := by
  intro p hp
  rcases List.mem_map.1 hp with ⟨k, hk, rfl⟩
  exact List.count_pos_iff.2 (mem_firstKeys.1 hk)

/-! ### Sorting lemmas -/

/-- Entries are compared by descending count. -/
def descBy (p q : Entry) : Prop := q.2 ≤ p.2

theorem mem_insertDesc {a x : Entry} : ∀ {l : List Entry},
    a ∈ insertDesc x l ↔ a = x ∨ a ∈ l := by
  intro l
  induction l with
  | nil => simp [insertDesc]
  | cons y ys ih =>
    rw [insertDesc]
    by_cases h : x.2 < y.2
    · rw [if_pos h]
      simp only [List.mem_cons, ih]
      tauto
    · rw [if_neg h]
      simp only [List.mem_cons]

theorem insertDesc_perm (x : Entry) : ∀ (l : List Entry),
    (insertDesc x l).Perm (x :: l) := by
  intro l
  induction l with
  | nil => exact List.Perm.refl _
  | cons y ys ih =>
    rw [insertDesc]
    by_cases h : x.2 < y.2
    · rw [if_pos h]
      exact (ih.cons y).trans (List.Perm.swap x y ys)
    · rw [if_neg h]

theorem sortDesc_perm : ∀ (l : List Entry), (sortDesc l).Perm l := by
  intro l
  induction l with
  | nil => exact List.Perm.refl _
  | cons x xs ih =>
    rw [sortDesc]
    exact (insertDesc_perm x (sortDesc xs)).trans (ih.cons x)

theorem length_sortDesc (l : List Entry) : (sortDesc l).length = l.length :=
  (sortDesc_perm l).length_eq

theorem pairwise_insertDesc (x : Entry) : ∀ {l : List Entry},
    l.Pairwise descBy → (insertDesc x l).Pairwise descBy := by
  intro l
  induction l with
  | nil => intro _; simp [insertDesc, List.pairwise_cons]
  | cons y ys ih =>
    intro hp
    rcases List.pairwise_cons.1 hp with ⟨hy, hys⟩
    rw [insertDesc]
    by_cases h : x.2 < y.2
    · rw [if_pos h]
      refine List.pairwise_cons.2 ⟨?_, ih hys⟩
      intro z hz
      rcases mem_insertDesc.1 hz with rfl | hz'
      · exact Nat.le_of_lt h
      · exact hy z hz'
    · rw [if_neg h]
      refine List.pairwise_cons.2 ⟨?_, hp⟩
      intro z hz
      rcases List.mem_cons.1 hz with rfl | hz'
      · exact Nat.le_of_not_lt h
      · exact Nat.le_trans (hy z hz') (Nat.le_of_not_lt h)

/-- The descending sort is sorted. -/
theorem pairwise_sortDesc : ∀ (l : List Entry), (sortDesc l).Pairwise descBy := by
  intro l
  induction l with
  | nil => exact List.Pairwise.nil
  | cons x xs ih => exact pairwise_insertDesc x ih

/-- Inserting preserves, for each count value, the subsequence of
entries carrying that count (the inserted entry goes first). -/
theorem filter_insertDesc (x : Entry) (c : Nat) : ∀ (l : List Entry),
    (insertDesc x l).filter (fun p => p.2 == c)
      = if x.2 = c then x :: l.filter (fun p => p.2 == c)
        else l.filter (fun p => p.2 == c) := by
  intro l
  induction l with
  | nil =>
    rw [insertDesc]
    by_cases hx : x.2 = c
    · rw [if_pos hx, List.filter_cons_of_pos (by simpa using hx)]
    · rw [if_neg hx, List.filter_cons_of_neg (by simpa using hx)]
  | cons y ys ih =>
    rw [insertDesc]
    by_cases h : x.2 < y.2
    · rw [if_pos h]
      by_cases hy : y.2 = c
      · have hx : ¬ x.2 = c := by omega
        rw [List.filter_cons_of_pos (by simpa using hy), ih, if_neg hx,
          List.filter_cons_of_pos (by simpa using hy), if_neg hx]
      · rw [List.filter_cons_of_neg (by simpa using hy), ih,
          List.filter_cons_of_neg (by simpa using hy)]
    · rw [if_neg h]
      by_cases hx : x.2 = c
      · rw [List.filter_cons_of_pos (by simpa using hx), if_pos hx]
      · rw [List.filter_cons_of_neg (by simpa using hx), if_neg hx]

/-- Stability of the descending sort: for every count value, the
entries carrying that count appear in their original order. -/
theorem filter_sortDesc (c : Nat) : ∀ (l : List Entry),
    (sortDesc l).filter (fun p => p.2 == c) = l.filter (fun p => p.2 == c) := by
  intro l
  induction l with
  | nil => rfl
  | cons x xs ih =>
    rw [sortDesc, filter_insertDesc]
    by_cases hx : x.2 = c
    · rw [if_pos hx, ih, List.filter_cons_of_pos (by simpa using hx)]
    · rw [if_neg hx, ih, List.filter_cons_of_neg (by simpa using hx)]

/-! ### Decimal representation lemmas -/

theorem natCharsAux_zero : ∀ (fuel : Nat), natCharsAux fuel 0 = [] := by
  intro fuel
  cases fuel with
  | zero => rfl
  | succ fuel => rw [natCharsAux, if_pos rfl]

theorem digitCh_toNat {d : Nat} (h : d < 10) : (digitCh d).toNat = 48 + d :=
  toNat_ofNat_small _ (by omega)

theorem charsToNat_append_digit (l : PyStr) (c : Char) :
    charsToNat (l ++ [c]) = (charsToNat l) * 10 + (c.toNat - 48) := by
  rw [charsToNat, charsToNat, List.foldl_append]
  rfl

theorem charsToNat_natCharsAux : ∀ (fuel n : Nat), n ≤ fuel →
    charsToNat (natCharsAux fuel n) = n := by
  intro fuel
  induction fuel with
  | zero =>
    intro n hn
    interval_cases n
    rfl
  | succ fuel ih =>
    intro n hn
    by_cases h0 : n = 0
    · subst h0
      rw [natCharsAux_zero]
      rfl
    · rw [natCharsAux, if_neg h0, charsToNat_append_digit,
        ih (n / 10) (by omega), digitCh_toNat (Nat.mod_lt n (by omega))]
      omega

/-- Decoding is a left inverse of the decimal encoding. -/
theorem charsToNat_natChars (n : Nat) : charsToNat (natChars n) = n := by
  by_cases h0 : n = 0
  · subst h0
    rfl
  · rw [natChars, if_neg h0]
    exact charsToNat_natCharsAux n n (Nat.le_refl n)

theorem natChars_ne_nil (n : Nat) : natChars n ≠ [] := by
  by_cases h0 : n = 0
  · subst h0
    simp [natChars]
  · rw [natChars, if_neg h0]
    cases n with
    | zero => exact absurd rfl h0
    | succ m =>
      rw [natCharsAux, if_neg h0]
      simp

theorem pyIsSpace_digitCh {d : Nat} (h : d < 10) : pyIsSpace (digitCh d) = false :=
  pyIsSpace_eq_false (by rw [digitCh_toNat h]; omega)

theorem natCharsAux_nonspace : ∀ (fuel n : Nat),
    ∀ c ∈ natCharsAux fuel n, pyIsSpace c = false := by
  intro fuel
  induction fuel with
  | zero => intro n c hc; exact absurd hc (List.not_mem_nil c)
  | succ fuel ih =>
    intro n c hc
    by_cases h0 : n = 0
    · subst h0
      rw [natCharsAux, if_pos rfl] at hc
      exact absurd hc (List.not_mem_nil c)
    · rw [natCharsAux, if_neg h0] at hc
      rcases List.mem_append.1 hc with h | h
      · exact ih (n / 10) c h
      · rw [List.mem_singleton] at h
        subst h
        exact pyIsSpace_digitCh (Nat.mod_lt n (by omega))

theorem natChars_nonspace (n : Nat) : ∀ c ∈ natChars n, pyIsSpace c = false := by
  intro c hc
  by_cases h0 : n = 0
  · subst h0
    rw [natChars, if_pos rfl, List.mem_singleton] at hc
    subst hc
    decide
  · rw [natChars, if_neg h0] at hc
    exact natCharsAux_nonspace n n c hc

/-! ### Report line lemmas -/

/-- Splitting a formatted report line recovers the word and the count
digits. -/
theorem pySplit_fmtLine (w : PyStr) (c : Nat) (hw : w ≠ [])
    (hwc : ∀ d ∈ w, pyIsSpace d = false) :
    pySplit (fmtLine w c) = [w, natChars c] := by
  have hline : fmtLine w c
      = w ++ (List.replicate (15 - w.length + 1) ' ' ++ natChars c) := by
    rw [fmtLine, List.append_assoc]
    congr 1
    rw [List.replicate_succ']
    rw [List.append_assoc]
    rfl
  rw [hline]
  exact pySplit_line w (natChars c) (15 - w.length) hw hwc
    (natChars_ne_nil c) (natChars_nonspace c)

/-- Parsing a formatted report line recovers the entry. -/
theorem parseLine_fmtLine (w : PyStr) (c : Nat) (hw : w ≠ [])
    (hwc : ∀ d ∈ w, pyIsSpace d = false) :
    parseLine (fmtLine w c) = some (w, c) := by
  rw [parseLine, pySplit_fmtLine w c hw hwc]
  show some (w, charsToNat (natChars c)) = some (w, c)
  rw [charsToNat_natChars]

/-! ### Longest and shortest word lemmas -/

/-- m is the first element of maximal length: it occurs at an index
before which every element is strictly shorter, and nothing is longer. -/
def firstMaxLen (l : List PyStr) (m : PyStr) : Prop :=
  ∃ i : Nat, l[i]? = some m ∧ (∀ v ∈ l, v.length ≤ m.length) ∧
    ∀ j, j < i → ∀ v, l[j]? = some v → v.length < m.length

/-- m is the first element of minimal length. -/
def firstMinLen (l : List PyStr) (m : PyStr) : Prop :=
  ∃ i : Nat, l[i]? = some m ∧ (∀ v ∈ l, m.length ≤ v.length) ∧
    ∀ j, j < i → ∀ v, l[j]? = some v → m.length < v.length

theorem pyMaxByLen_ne_none (w : PyStr) (ws : List PyStr) :
    pyMaxByLen (w :: ws) ≠ none := by
  rw [pyMaxByLen]
  cases pyMaxByLen ws with
  | none => simp
  | some v =>
    by_cases h : w.length < v.length <;> simp [h]

theorem pyMinByLen_ne_none (w : PyStr) (ws : List PyStr) :
    pyMinByLen (w :: ws) ≠ none := by
  rw [pyMinByLen]
  cases pyMinByLen ws with
  | none => simp
  | some v =>
    by_cases h : v.length < w.length <;> simp [h]

/-- pyMaxByLen returns the first element of maximal length. -/
theorem pyMaxByLen_spec : ∀ (l : List PyStr), l ≠ [] →
    ∃ m, pyMaxByLen l = some m ∧ firstMaxLen l m := by
  intro l
  induction l with
  | nil => intro h; exact absurd rfl h
  | cons w ws ih =>
    intro _
    cases hws : pyMaxByLen ws with
    | none =>
      have hnil : ws = [] := by
        by_contra hne
        rcases ih hne with ⟨m, hm, _⟩
        rw [hm] at hws
        exact Option.noConfusion hws
      subst hnil
      refine ⟨w, rfl, 0, rfl, ?_, ?_⟩
      · intro v hv
        rcases List.mem_cons.1 hv with rfl | hv'
        · exact Nat.le_refl _
        · exact absurd hv' (List.not_mem_nil v)
      · intro j hj
        omega
    | some v =>
      rcases ih (by intro h; rw [h] at hws; exact Option.noConfusion hws)
        with ⟨v', hv', i, hi, hmax, hfirst⟩
      rw [hws] at hv'
      injection hv' with hv'
      subst hv'
      by_cases hlt : w.length < v.length
      · refine ⟨v, by rw [pyMaxByLen, hws]; simp [hlt], i + 1, by simpa using hi, ?_, ?_⟩
        · intro u hu
          rcases List.mem_cons.1 hu with rfl | hu'
          · exact Nat.le_of_lt hlt
          · exact hmax u hu'
        · intro j hj u hju
          cases j with
          | zero =>
            rw [List.getElem?_cons_zero] at hju
            injection hju with hju
            subst hju
            exact hlt
          | succ j' =>
            rw [List.getElem?_cons_succ] at hju
            exact hfirst j' (by omega) u hju
      · refine ⟨w, by rw [pyMaxByLen, hws]; simp [hlt], 0, by simp, ?_, ?_⟩
        · intro u hu
          rcases List.mem_cons.1 hu with rfl | hu'
          · exact Nat.le_refl _
          · exact Nat.le_trans (hmax u hu') (Nat.le_of_not_lt hlt)
        · intro j hj
          omega

/-- pyMinByLen returns the first element of minimal length. -/
theorem pyMinByLen_spec : ∀ (l : List PyStr), l ≠ [] →
    ∃ m, pyMinByLen l = some m ∧ firstMinLen l m := by
  intro l
  induction l with
  | nil => intro h; exact absurd rfl h
  | cons w ws ih =>
    intro _
    cases hws : pyMinByLen ws with
    | none =>
      have hnil : ws = [] := by
        by_contra hne
        rcases ih hne with ⟨m, hm, _⟩
        rw [hm] at hws
        exact Option.noConfusion hws
      subst hnil
      refine ⟨w, rfl, 0, rfl, ?_, ?_⟩
      · intro v hv
        rcases List.mem_cons.1 hv with rfl | hv'
        · exact Nat.le_refl _
        · exact absurd hv' (List.not_mem_nil v)
      · intro j hj
        omega
    | some v =>
      rcases ih (by intro h; rw [h] at hws; exact Option.noConfusion hws)
        with ⟨v', hv', i, hi, hmin, hfirst⟩
      rw [hws] at hv'
      injection hv' with hv'
      subst hv'
      by_cases hlt : v.length < w.length
      · refine ⟨v, by rw [pyMinByLen, hws]; simp [hlt], i + 1, by simpa using hi, ?_, ?_⟩
        · intro u hu
          rcases List.mem_cons.1 hu with rfl | hu'
          · exact Nat.le_of_lt hlt
          · exact hmin u hu'
        · intro j hj u hju
          cases j with
          | zero =>
            rw [List.getElem?_cons_zero] at hju
            injection hju with hju
            subst hju
            exact hlt
          | succ j' =>
            rw [List.getElem?_cons_succ] at hju
            exact hfirst j' (by omega) u hju
      · refine ⟨w, by rw [pyMinByLen, hws]; simp [hlt], 0, by simp, ?_, ?_⟩
        · intro u hu
          rcases List.mem_cons.1 hu with rfl | hu'
          · exact Nat.le_refl _
          · exact Nat.le_trans (Nat.le_of_not_lt hlt) (hmin u hu')
        · intro j hj
          omega

/-- The report line format claim C2 describes: the word left-padded or
truncated to an exactly-15-character field, then a space and the count. -/
def claimLine (w : PyStr) (c : Nat) : PyStr :=
  (if 15 ≤ w.length then w.take 15 else List.replicate (15 - w.length) ' ' ++ w)
    ++ ' ' :: natChars c

/-! ### Claim theorems -/

/-- C1: after save_report, the lines written to the file are exactly
the entries of filtered_frequency().most_common() with no limit, in
descending-count order with first-occurrence tie-break, and parsing
each line back recovers exactly those word/count pairs in that order. -/
theorem save_report_round_trip (s : PyStr) :
    save_report_lines s
      = (filtered_most_common_all s).map (fun p => fmtLine p.1 p.2)
    ∧ (save_report_lines s).map parseLine
      = (filtered_most_common_all s).map some
    ∧ (filtered_most_common_all s).Pairwise descBy
    ∧ (filtered_most_common_all s).Perm (filtered_frequency s) := by
  refine ⟨rfl, ?_, pairwise_sortDesc _, sortDesc_perm _⟩
  rw [save_report_lines, List.map_map]
  refine List.map_congr_left (fun p hp => ?_)
  have hmem : p ∈ filtered_frequency s := ((sortDesc_perm _).mem_iff).1 hp
  rcases List.mem_map.1 hmem with ⟨k, hk, rfl⟩
  have hkt : k ∈ filteredTokens s := mem_firstKeys.1 hk
  have hkt2 : k ∈ pyTokens s := (List.mem_filter.1 hkt).1
  have hwf := pySplit_wf (clean_user s) k hkt2
  exact parseLine_fmtLine k _ hwf.1 hwf.2

/-- C2 counterexample: the claimed 15-character left-padded/truncated
field format does not match the printed report lines (the code
left-justifies by padding on the right and never truncates). -/
theorem report_lines_claim_cex :
    report_lines ("fox supercalifragilistic fox".data)
      ≠ (most_common_all ("fox supercalifragilistic fox".data)).map
          (fun p => claimLine p.1 p.2) := by decide

/-- C2 amended: report() emits one line per distinct word, in full
descending-frequency order with no limit; on each line the word is
left-justified (padded on the right with spaces) to a minimum
15-character field, never truncated, followed by a space and the
count. -/
theorem report_lines_spec (s : PyStr) :
    report_lines s = (most_common_all s).map
      (fun p => (p.1 ++ List.replicate (15 - p.1.length) ' ') ++ ' ' :: natChars p.2)
    ∧ (most_common_all s).Pairwise descBy
    ∧ (most_common_all s).Perm (word_frequency s)
    ∧ (report_lines s).length = setSize (pyTokens s) := by
  refine ⟨rfl, pairwise_sortDesc _, sortDesc_perm _, ?_⟩
  rw [report_lines, List.length_map, most_common_all, length_sortDesc,
    word_frequency, counterItems, List.length_map]
  rfl

/-- C3: clean_user equals lowercasing applied after trimming, and
normalization is idempotent. -/
theorem clean_user_spec (s : PyStr) :
    clean_user s = normalizedSpec s
    ∧ clean_user (clean_user s) = clean_user s := by
  refine ⟨pyStrip_pyLower s, ?_⟩
  show pyStrip (pyLower (pyStrip (pyLower s))) = pyStrip (pyLower s)
  rw [← pyStrip_pyLower (pyLower s), pyLower_idem, pyStrip_idem]

/-- C4: most_common(n) has length min(n, vocabulary size), is sorted by
descending count, returns everything when n covers the vocabulary,
returns nothing for n ≤ 0, and breaks ties by first-occurrence
insertion order (for each count value, the entries carrying it appear
exactly as in the insertion-ordered counter). -/
theorem most_common_spec (s : PyStr) (n : Int) :
    (most_common s n).length = min n.toNat (stats s).2
    ∧ (most_common s n).Pairwise descBy
    ∧ (n ≤ 0 → most_common s n = [])
    ∧ (((stats s).2 : Int) ≤ n → most_common s n = most_common_all s)
    ∧ (∀ c : Nat, (most_common_all s).filter (fun p => p.2 == c)
        = (word_frequency s).filter (fun p => p.2 == c))
    ∧ most_common s n = (most_common_all s).take n.toNat := by
  have hlen : (most_common_all s).length = (stats s).2 := by
    rw [most_common_all, length_sortDesc, word_frequency, counterItems,
      List.length_map]
    rfl
  refine ⟨?_, ?_, ?_, ?_, fun c => filter_sortDesc c _, rfl⟩
  · rw [most_common, List.length_take, hlen]
  · exact List.Pairwise.sublist (List.take_sublist _ _) (pairwise_sortDesc _)
  · intro hn
    rw [most_common, Int.toNat_of_nonpos hn, List.take_zero]
  · intro hn
    rw [most_common]
    apply List.take_of_length_le
    rw [hlen]
    omega

/-- Witness for C4 at a concrete input. -/
theorem most_common_spec_witness :
    most_common ("a a b".data) (-1) = []
    ∧ most_common ("a a b".data) 5 = most_common_all ("a a b".data) := by
  have hneg := most_common_spec ("a a b".data) (-1)
  have hbig := most_common_spec ("a a b".data) 5
  exact ⟨hneg.2.2.1 (by decide), hbig.2.2.2.1 (by decide)⟩

/-- C5: for n ≤ m the word list of most_common(n) is a subsequence of
the word list of most_common(m), in the same relative order. -/
theorem most_common_mono (s : PyStr) (n m : Int) (h : n ≤ m) :
    List.Sublist ((most_common s n).map Prod.fst)
      ((most_common s m).map Prod.fst) := by
  apply List.Sublist.map
  rw [most_common, most_common]
  have hnm : n.toNat ≤ m.toNat := by omega
  have htt : (most_common_all s).take n.toNat
      = ((most_common_all s).take m.toNat).take n.toNat := by
    rw [List.take_take, Nat.min_eq_left hnm]
  rw [htt]
  exact List.take_sublist _ _

/-- Witness for C5 at a concrete input. -/
theorem most_common_mono_witness :
    List.Sublist ((most_common ("a b b c".data) 1).map Prod.fst)
      ((most_common ("a b b c".data) 2).map Prod.fst) :=
  most_common_mono ("a b b c".data) 1 2 (by decide)

/-- C6: the counts of word_frequency sum to the number of
whitespace-delimited tokens of the normalized input, which is
stats' total_words; the empty string yields an empty mapping. -/
theorem word_frequency_sum_spec (s : PyStr) :
    ((word_frequency s).map Prod.snd).sum = (pyTokens s).length
    ∧ ((word_frequency s).map Prod.snd).sum = (stats s).1
    ∧ word_frequency [] = [] :=
  ⟨sum_counterItems _, sum_counterItems _, rfl⟩

/-- C7: filtered_frequency never contains a stop word, and has at most
as many distinct keys as word_frequency. -/
theorem filtered_frequency_spec (s : PyStr) :
    (∀ w ∈ (filtered_frequency s).map Prod.fst, w ∉ STOP_WORDS)
    ∧ ((filtered_frequency s).map Prod.fst).length
        ≤ ((word_frequency s).map Prod.fst).length := by
  constructor
  · intro w hw
    rw [filtered_frequency, keys_counterItems] at hw
    have hmem : w ∈ filteredTokens s := mem_firstKeys.1 hw
    have hself := (List.mem_filter.1 hmem).2
    simpa using hself
  · rw [filtered_frequency, word_frequency, keys_counterItems,
      keys_counterItems, filteredTokens, firstKeys_filter]
    exact List.length_filter_le _ _

/-- C8: word_lengths is (None, None) exactly when the filtered token
list is empty; otherwise longest is the first token of maximal length
and shortest the first token of minimal length, in token-scan order. -/
theorem word_lengths_spec (s : PyStr) :
    (word_lengths s = (none, none) ↔ filteredTokens s = [])
    ∧ (filteredTokens s ≠ [] → ∃ a b, word_lengths s = (some a, some b)
        ∧ firstMaxLen (filteredTokens s) a
        ∧ firstMinLen (filteredTokens s) b) := by
  constructor
  · constructor
    · intro h
      cases hft : filteredTokens s with
      | nil => rfl
      | cons w ws =>
        rw [word_lengths, hft] at h
        exact absurd (congrArg Prod.fst h) (pyMaxByLen_ne_none w ws)
    · intro h
      rw [word_lengths, h]
      rfl
  · intro h
    rcases pyMaxByLen_spec (filteredTokens s) h with ⟨a, ha, hfa⟩
    rcases pyMinByLen_spec (filteredTokens s) h with ⟨b, hb, hfb⟩
    exact ⟨a, b, by rw [word_lengths, ha, hb], hfa, hfb⟩

/-- Witness for C8 at a concrete input. -/
theorem word_lengths_spec_witness :
    ∃ a b, word_lengths ("Fox IS in a Orange car".data) = (some a, some b)
      ∧ firstMaxLen (filteredTokens ("Fox IS in a Orange car".data)) a
      ∧ firstMinLen (filteredTokens ("Fox IS in a Orange car".data)) b :=
  (word_lengths_spec ("Fox IS in a Orange car".data)).2 (by decide)

/-- C9: the pure pipeline operations are total functions of the input
string in this embedding, and their results are well-formed values of
the stated result types: frequency maps have distinct keys and positive
counts, stats counts the token list, and word_lengths returns both
fields None together or both Some together. -/
theorem pipeline_wf (s : PyStr) :
    ((word_frequency s).map Prod.fst).Nodup
    ∧ (∀ p ∈ word_frequency s, 1 ≤ p.2)
    ∧ ((filtered_frequency s).map Prod.fst).Nodup
    ∧ (∀ p ∈ filtered_frequency s, 1 ≤ p.2)
    ∧ (stats s).1 = (pyTokens s).length
    ∧ ((word_lengths s).1 = none ↔ (word_lengths s).2 = none) := by
  refine ⟨?_, counterItems_pos _, ?_, counterItems_pos _, rfl, ?_⟩
  · rw [word_frequency, keys_counterItems]
    exact nodup_firstKeys _
  · rw [filtered_frequency, keys_counterItems]
    exact nodup_firstKeys _
  · rw [word_lengths]
    cases hft : filteredTokens s with
    | nil => simp [pyMaxByLen, pyMinByLen]
    | cons w ws =>
      constructor
      · intro h
        exact absurd h (pyMaxByLen_ne_none w ws)
      · intro h
        exact absurd h (pyMinByLen_ne_none w ws)

/-- C10: for a non-stop word, filtering does not change its count:
filtered_frequency agrees with word_frequency on every non-stop word,
and all stored counts are at least 1. -/
theorem filtered_restriction_spec (s : PyStr) (w : PyStr)
    (h : w ∉ STOP_WORDS) :
    (filtered_frequency s).lookup w = (word_frequency s).lookup w
    ∧ (∀ p ∈ word_frequency s, 1 ≤ p.2)
    ∧ (∀ p ∈ filtered_frequency s, 1 ≤ p.2) := by
  refine ⟨?_, counterItems_pos _, counterItems_pos _⟩
  rw [filtered_frequency, word_frequency, lookup_counterItems,
    lookup_counterItems]
  simp only [filteredTokens]
  have hcont : (!(STOP_WORDS.contains w)) = true := by simpa using h
  by_cases hmem : w ∈ pyTokens s
  · rw [if_pos hmem, if_pos (List.mem_filter.2 ⟨hmem, hcont⟩)]
    rw [List.count_filter (p := fun u => !(STOP_WORDS.contains u)) (a := w) hcont]
  · rw [if_neg hmem, if_neg (fun hc => hmem (List.mem_filter.1 hc).1)]

/-- Witness for C10 at a concrete input. -/
theorem filtered_restriction_spec_witness :
    (filtered_frequency ("fox is fox".data)).lookup ("fox".data)
      = (word_frequency ("fox is fox".data)).lookup ("fox".data)
    ∧ (∀ p ∈ word_frequency ("fox is fox".data), 1 ≤ p.2)
    ∧ (∀ p ∈ filtered_frequency ("fox is fox".data), 1 ≤ p.2) :=
  filtered_restriction_spec ("fox is fox".data) ("fox".data) (by decide)

end WordCounter
